import Mathlib

/-!
Verification of the Sapling HTML template engine
(`packages/sapling/src/html/index.ts`): the `html` tagged-template
function, the `raw` escape-marking function, `escapeToBuffer`,
`stringBufferToString`, and the callback-resolution protocol
(`resolveCallback` / `resolveCallbackSync`).

The TypeScript code is shallowly embedded: JS strings become `String`,
the mutable `StringBuffer` (`buffer[0] +=`, `buffer.unshift`) becomes an
explicit `HtmlBuf` record, promises become records holding their
settlement delay and eventual outcome (`Except` for rejection), and an
`HtmlEscapedString` (a `String` object carrying `isEscaped` and
`callbacks`) becomes the inductive `EString`.  A caller-supplied
callback (`HtmlEscapedCallback`) is modelled as an identifier together
with the value its returned promise eventually resolves to (`none`
models a callback returning `undefined`); buffer-reading callbacks are
outside the model, which is what the verified claims require.
-/

namespace Sapling

/-- Processing phases, from the `HtmlEscapedCallbackPhase` constant map. -/
def HtmlEscapedCallbackPhase.Stringify : Nat := 1

/-- BeforeStream phase constant. -/
def HtmlEscapedCallbackPhase.BeforeStream : Nat := 2

/-- Stream phase constant. -/
def HtmlEscapedCallbackPhase.Stream : Nat := 3

/-- Model of an `HtmlEscapedString`: a `String` object with a `value`, the
`isEscaped` marker, and an optional `callbacks` array.  A callback is a
pair of an identifier (to observe invocation order) and the settlement of
the promise it returns: `none` when the callback returns `undefined`,
`some (.error e)` when its promise rejects, `some (.ok w)` when it
resolves to `w`.  That resolved value may itself carry callbacks, hence
the nesting. -/
inductive EString : Type where
  | mk (value : String) ( isEscaped : Bool)
      (callbacks : Option (List (Nat × Option (Except String EString)))) : EString
deriving Repr

/-- A single modelled callback: identifier plus the settlement of its
returned promise. -/
abbrev Cb : Type := Nat × Option (Except String EString)

/-- The string value carried by an `HtmlEscapedString`. -/
def EString.value : EString → String
  | .mk v _ _ => v

/-- The `isEscaped` marker of an `HtmlEscapedString`. -/
def EString.isEscaped : EString → Bool
  | .mk _ e _ => e

/-- The `callbacks` property of an `HtmlEscapedString` (`none` models the
property being `undefined`). -/
def EString.callbacks : EString → Option (List Cb)
  | .mk _ _ c => c

/-- `raw(value, callbacks?)`: wraps the value as a `String` object, sets
`isEscaped = true` and assigns `callbacks` exactly as given (no
validation). -/
def raw (value : String) (callbacks : Option (List Cb)) : EString :=
  .mk value true callbacks

/-- A value a settled buffer promise can hold: a primitive string, or an
`HtmlEscapedString` object (reaching the `typeof r === 'object'` branch of
`stringBufferToString`). -/
inductive Resolved : Type where
  | prim (s : String)
  | obj (v : EString)
deriving Repr

/-- Model of a JS promise of template content: its settlement delay (used
only to decide which rejection settles first) and its outcome — a
rejection carrying an error message, or a resolved value. -/
structure JSProm : Type where
  delay : Nat
  result : Except String Resolved
deriving Repr

/-- A JS value interpolated into the template, covering every branch of
the `html` classification: plain string, number, boolean, `null`,
`undefined`, array, object marked escaped (`EString`), promise, and the
fallback "anything else", carried as its `toString()` result. -/
inductive JSValue : Type where
  | str (s : String)
  | num (n : Int)
  | bool (b : Bool)
  | null
  | undefined
  | arr (elems : List JSValue)
  | escaped (v : EString)
  | prom (p : JSProm)
  | other (s : String)
deriving Repr

/-- The `switch (str.charCodeAt(index))` of `escapeToBuffer`: the escape
entity for a character code, or `none` for the `default: continue` case. -/
def escapeCode : Nat → Option String
  | 34 => some "&quot;"
  | 39 => some "&#39;"
  | 38 => some "&amp;"
  | 60 => some "&lt;"
  | 62 => some "&gt;"
  | _ => none

/-- Character-by-character escaping: each of the five special characters
is replaced by its entity, every other character is copied verbatim.
This is the per-character reading of the escaping rule; the theorem for
claim C1 proves the scanning loop `escapeToBuffer` equal to it. -/
def escapeList : List Char → String
  | [] => ""
  | c :: rest =>
    (match escapeCode c.toNat with
     | some e => e
     | none => String.singleton c) ++ escapeList rest

/-- The `for (index = match; ...)` loop of `escapeToBuffer`: `run` is the
pending unescaped run (`str.substring(lastIndex, index)`), `acc` is
`buffer[0]`.  On a special character the run and the entity are flushed;
at the end the final run is flushed. -/
def escRun : List Char → String → String → String
  | [], run, acc => acc ++ run
  | c :: rest, run, acc =>
    match escapeCode c.toNat with
    | some e => escRun rest "" (acc ++ run ++ e)
    | none => escRun rest (run ++ String.singleton c) acc

/-- `escapeToBuffer(str, buffer)`: if `str.search(escapeRe) === -1` the
whole string is appended to `buffer[0]` verbatim; otherwise the scanning
loop appends unescaped runs and entities.  Returns the new `buffer[0]`. -/
def escapeToBuffer (str : String) (buf : String) : String :=
  if str.data.all (fun c => (escapeCode c.toNat).isNone) then buf ++ str
  else escRun str.data "" buf

/-- An entry of the `StringBuffer` as `html` builds it: the accumulated
string entries, a deferred promise, or a deferred escaped-with-callbacks
`String` object. -/
inductive BufEntry : Type where
  | str (s : String)
  | prom (p : JSProm)
  | esc (v : EString)
deriving Repr

/-- Settling one buffer entry, as `Promise.all(buffer)` does: strings and
`String` objects pass through unchanged, a promise yields its resolved
value or its rejection (tagged with its settlement delay). -/
def settleOf : BufEntry → Except (Nat × String) Resolved
  | .str s => .ok (.prim s)
  | .esc v => .ok (.obj v)
  | .prom p =>
    match p.result with
    | .ok r => .ok r
    | .error e => .error (p.delay, e)

/-- The rejections among the entries, each with its settlement delay, in
buffer order. -/
def rejectionsOf (entries : List BufEntry) : List (Nat × String) :=
  entries.filterMap (fun e =>
    match settleOf e with
    | .error de => some de
    | .ok _ => none)

/-- The rejection that settles first: minimal delay, ties broken by
buffer position (earlier wins). -/
def earliestRejection : List (Nat × String) → Option (Nat × String)
  | [] => none
  | x :: rest => some (rest.foldl (fun best y => if y.1 < best.1 then y else best) x)

/-- `Promise.all(buffer)`: if some entry's promise rejects, the bulk wait
rejects with the error of the rejection that settles first; otherwise it
yields every entry's settled value, in buffer order. -/
def promiseAll (entries : List BufEntry) : Except String (List Resolved) :=
  match earliestRejection (rejectionsOf entries) with
  | some (_, e) => .error e
  | none => .ok (entries.map (fun e => match settleOf e with
      | .ok r => r
      | .error _ => .prim ""))

/-- The value `str += resolvedBuffer[i]` coerces an entry to at a string
position of the loop (a `String` object coerces via `toString()`). -/
def rvalue : Resolved → String
  | .prim s => s
  | .obj v => v.value

/-- The right-to-left loop of `stringBufferToString`, run on the reversed
resolved buffer so template order is list order: consume a string part,
then a value part (its callbacks are collected; it is appended verbatim
when `isEscaped`, otherwise escaped), until a single final string part
remains.  The empty case mirrors the JS loop reading
`resolvedBuffer[-1]`, which appends `undefined`. -/
def assemble : List Resolved → String → List Cb → String × List Cb
  | [], str, cbs => (str ++ "undefined", cbs)
  | [x], str, cbs => (str ++ rvalue x, cbs)
  | x :: y :: rest, str, cbs =>
    let str1 := str ++ rvalue x
    match y with
    | .prim s => assemble rest (escapeToBuffer s str1) cbs
    | .obj v =>
      let cbs1 := cbs ++ v.callbacks.getD []
      if v.isEscaped then assemble rest (str1 ++ v.value) cbs1
      else assemble rest (escapeToBuffer v.value str1) cbs1

/-- `stringBufferToString(buffer, callbacks)`: defaults the callback list
(`callbacks ||= []`), bulk-awaits the buffer, reassembles right-to-left,
and returns `raw(str, callbacks)` — or the first-settled rejection. -/
def stringBufferToString (buffer : List BufEntry) (callbacks : Option (List Cb)) :
    Except String EString :=
  match promiseAll buffer with
  | .error e => .error e
  | .ok resolved =>
    let (str, cbs) := assemble resolved.reverse "" (callbacks.getD [])
    .ok (raw str (some cbs))

mutual

/-- `.flat(Infinity)` together with the non-array wrapping `[values[i]]`:
an array flattens recursively to unbounded depth, any other value stands
alone. -/
def flattenVal : JSValue → List JSValue
  | .arr l => flattenList l
  | .str s => [.str s]
  | .num n => [.num n]
  | .bool b => [.bool b]
  | .null => [.null]
  | .undefined => [.undefined]
  | .escaped v => [.escaped v]
  | .prom p => [.prom p]
  | .other s => [.other s]

/-- Flattening of the elements of an array, in order. -/
def flattenList : List JSValue → List JSValue
  | [] => []
  | x :: rest => flattenVal x ++ flattenList rest

end

mutual

/-- JS `toString()` on a modelled value, used by the fallback branch of
`html` (`escapeToBuffer(child.toString(), buffer)`). -/
def jsToString : JSValue → String
  | .str s => s
  | .num n => toString n
  | .bool b => if b then "true" else "false"
  | .null => "null"
  | .undefined => "undefined"
  | .arr l => jsArrToString l
  | .escaped v => v.value
  | .prom _ => "[object Promise]"
  | .other s => s

/-- JS `Array.prototype.toString`: elements joined with commas. -/
def jsArrToString : List JSValue → String
  | [] => ""
  | [x] => jsElemToString x
  | x :: y :: rest => jsElemToString x ++ "," ++ jsArrToString (y :: rest)

/-- Array elements stringify like values, except `null` and `undefined`
become empty. -/
def jsElemToString : JSValue → String
  | .null => ""
  | .undefined => ""
  | .str s => s
  | .num n => toString n
  | .bool b => if b then "true" else "false"
  | .arr l => jsArrToString l
  | .escaped v => v.value
  | .prom _ => "[object Promise]"
  | .other s => s

end

/-- The `StringBufferWithCallbacks` built by `html`: `head` is the
accumulating `buffer[0]` string, `rest` the remaining entries in order,
and `callbacks` the optional `callbacks` property of the array object
(never assigned inside `html`). -/
structure HtmlBuf : Type where
  head : String
  rest : List BufEntry
  callbacks : Option (List Cb)
deriving Repr

/-- `buffer.unshift('', child)`: the current `buffer[0]` string becomes a
plain entry behind the deferred child and `buffer[0]` restarts empty. -/
def HtmlBuf.unshift (b : HtmlBuf) (e : BufEntry) : HtmlBuf :=
  { b with head := "", rest := e :: .str b.head :: b.rest }

/-- One iteration of the inner child loop of `html`, classifying a
(flattened) child exactly as the source's branch cascade does. -/
def processChild (b : HtmlBuf) (child : JSValue) : HtmlBuf :=
  match child with
  | .str s => { b with head := escapeToBuffer s b.head }
  | .num n => { b with head := b.head ++ toString n }
  | .bool _ => b
  | .null => b
  | .undefined => b
  | .escaped v =>
    if v.isEscaped then
      match v.callbacks with
      | some _ => b.unshift (.esc v)
      | none => { b with head := b.head ++ v.value }
    else { b with head := escapeToBuffer (jsToString (.escaped v)) b.head }
  | .prom p => b.unshift (.prom p)
  | .arr l => { b with head := escapeToBuffer (jsToString (.arr l)) b.head }
  | .other s => { b with head := escapeToBuffer (jsToString (.other s)) b.head }

/-- The outer loop of `html` over `i < strings.length - 1`: append the
segment, then process the flattened children of `values[i]` (a missing
value reads as `undefined`). -/
def htmlSteps : HtmlBuf → List String → List JSValue → HtmlBuf
  | b, seg :: s2 :: restSegs, vals =>
    let b1 := { b with head := b.head ++ seg }
    let b2 := (flattenVal (vals.headD .undefined)).foldl processChild b1
    htmlSteps b2 (s2 :: restSegs) vals.tail
  | b, _, _ => b

/-- `resolveCallbackSync(str)`: with no callbacks the string is returned
as-is; otherwise the callbacks are invoked on a one-cell buffer holding
the string and `buffer[0]` is returned.  Modelled callbacks carry a fixed
output and do not write the buffer, so the cell still holds the input. -/
def resolveCallbackSync (v : EString) : String :=
  match v.callbacks.getD [] with
  | [] => v.value
  | _ :: _ => v.value

/-- The full buffer `html` hands to `stringBufferToString`: `buffer[0]`
followed by the remaining entries. -/
def HtmlBuf.entries (b : HtmlBuf) : List BufEntry :=
  .str b.head :: b.rest

/-- The result of a template invocation: an `HtmlEscapedString` returned
synchronously, or a promise modelled by its eventual settlement. -/
inductive HtmlResult : Type where
  | sync (v : EString)
  | async (p : Except String EString)
deriving Repr

/-- The `html` tagged-template function: build the buffer over the
segments and values, append the final segment (`strings.at(-1)`), and
either return synchronously (`buffer.length === 1`; the
`'callbacks' in buffer` arm included, though `html` never assigns it) or
hand the buffer to `stringBufferToString`. -/
def html (segs : List String) (vals : List JSValue) : HtmlResult :=
  let b0 := htmlSteps ⟨"", [], none⟩ segs vals
  let b := { b0 with head := b0.head ++ (segs.getLast?.getD "undefined") }
  if b.rest.isEmpty then
    match b.callbacks with
    | some cbl => .sync (raw (resolveCallbackSync (raw b.head (some cbl))) none)
    | none => .sync (raw b.head none)
  else
    .async (stringBufferToString b.entries b.callbacks)

mutual

/-- Size of an `HtmlEscapedString` value tree, counting the value and its
callback entries; the fuel bound for `resolveCallbackFuel`. -/
def hsize : EString → Nat
  | .mk _ _ none => 1
  | .mk _ _ (some cbl) => 1 + hsizeList cbl

/-- Size of a callback list. -/
def hsizeList : List Cb → Nat
  | [] => 0
  | (_, none) :: rest => 1 + hsizeList rest
  | (_, some (.error _)) :: rest => 1 + hsizeList rest
  | (_, some (.ok v)) :: rest => 1 + hsize v + hsizeList rest

end

/-- The first rejection among the settled callback promises, in order:
the rejection `Promise.all(callbacks.map(c => c(opts)))` rejects with. -/
def firstErr : List (Option (Except String EString)) → Option String
  | [] => none
  | some (.error e) :: _ => some e
  | _ :: rest => firstErr rest

/-- The successfully resolved, non-`undefined` callback outputs, in
order: the list `res.filter(Boolean)` the recursion then runs on. -/
def okOuts (l : List Cb) : List EString :=
  l.filterMap (fun c =>
    match c.2 with
    | some (.ok w) => some w
    | _ => none)

/-- The `Promise.all(res.filter(Boolean).map(str => resolveCallback(str,
phase, false, context, buffer)))` step of `resolveCallback`, at one
recursion level: each callback output is resolved into the shared buffer
in order.  An output with no callbacks is returned by `resolveCallback`
before touching the buffer, so it is dropped; an output with callbacks is
appended, its callbacks fire in attachment order (the trace records their
identifiers), and their own outputs recurse through `deep`, the next
level down.  A rejecting callback promise rejects the whole chain with
that error (nothing is caught). -/
def chainGo (phase : Nat)
    (deep : List EString → String → Option (Except String (String × List Nat))) :
    List EString → String → Option (Except String (String × List Nat))
  | [], buf => some (.ok (buf, []))
  | .mk s _ cbs :: rest, buf =>
    match cbs.getD [] with
    | [] => chainGo phase deep rest buf
    | cbl =>
      match firstErr (cbl.map (fun c => c.2)) with
      | some err => some (.error err)
      | none =>
        match deep (okOuts cbl) (buf ++ s) with
        | none => none
        | some (.error err) => some (.error err)
        | some (.ok (buf1, tr)) =>
          match chainGo phase deep rest buf1 with
          | none => none
          | some (.error err) => some (.error err)
          | some (.ok (buf2, tr2)) =>
            some (.ok (buf2, (cbl.map (fun c => c.1) ++ tr) ++ tr2))

/-- The recursion of `resolveCallback` over callback outputs, with an
explicit fuel charging one unit per nesting level (the model of the JS
microtask chain; `none` is fuel exhaustion, which the termination theorem
for claim C5 rules out). -/
def chainFuel : Nat → Nat → List EString → String →
    Option (Except String (String × List Nat))
  | 0, phase => chainGo phase (fun _ _ => none)
  | f + 1, phase => chainGo phase (chainFuel f phase)

/-- `resolveCallback(str, phase, preserveCallbacks, context, buffer?)`,
with an explicit fuel charging one unit per recursive level (the model of
the JS call stack / microtask chain; the termination theorem for claim C5
shows `hsize` fuel always suffices).  With no callbacks the value is
returned untouched; otherwise the value is appended to the buffer (or
starts one), every callback fires in attachment order (the returned trace
records their identifiers), each callback output is recursively resolved
into the shared buffer with `preserveCallbacks` cleared, and the final
buffer is returned — re-wrapped with the callbacks (`raw`) when
`preserveCallbacks` is set, as a plain string otherwise.  A rejecting
callback promise makes the overall result that same rejection; the
function catches nothing. -/
def resolveCallbackFuel (fuel phase : Nat) ( preserveCallbacks : Bool)
    (v : EString) (buffer : Option String) :
    Option (Except String (EString × List Nat)) :=
  match v with
  | .mk s e cbs =>
    match cbs.getD [] with
    | [] => some (.ok (.mk s e cbs, []))
    | cbl =>
      match fuel with
      | 0 => none
      | f + 1 =>
        let buf0 := match buffer with | some b => b ++ s | none => s
        match firstErr (cbl.map (fun c => c.2)) with
        | some err => some (.error err)
        | none =>
          match chainFuel f phase (okOuts cbl) buf0 with
          | none => none
          | some (.error err) => some (.error err)
          | some (.ok (buf1, tr)) =>
            some (.ok (if preserveCallbacks then .mk buf1 true (some cbl)
                       else .mk buf1 false none,
                       cbl.map (fun c => c.1) ++ tr))

/-- Erase a promise's settlement delay (its outcome is unchanged): the
formal rendering of "no matter with what delays the promises settle". -/
def stripProm (p : JSProm) : JSProm := ⟨0, p.result⟩

mutual

/-- Erase every settlement delay inside a value. -/
def stripVal : JSValue → JSValue
  | .prom p => .prom (stripProm p)
  | .arr l => .arr (stripList l)
  | .str s => .str s
  | .num n => .num n
  | .bool b => .bool b
  | .null => .null
  | .undefined => .undefined
  | .escaped v => .escaped v
  | .other s => .other s

/-- Erase the delays in a list of values. -/
def stripList : List JSValue → List JSValue
  | [] => []
  | x :: rest => stripVal x :: stripList rest

end

/-- Erase the delay of a buffer entry. -/
def stripEntry : BufEntry → BufEntry
  | .prom p => .prom (stripProm p)
  | .str s => .str s
  | .esc v => .esc v

/-- Erase the delays of a whole buffer. -/
def stripBuf (b : HtmlBuf) : HtmlBuf :=
  ⟨b.head, b.rest.map stripEntry, b.callbacks⟩

/-- A (flattened) child `html` defers instead of appending: a promise, or
an object marked escaped that carries a `callbacks` property. -/
def deferredChild : JSValue → Bool
  | .prom _ => true
  | .escaped v => v.isEscaped && v.callbacks.isSome
  | _ => false

/-- A value requires deferral when some of its flattened children do. -/
def isDeferredVal (v : JSValue) : Bool := (flattenVal v).any deferredChild

/-- A (flattened) child whose promise, if any, resolves. -/
def flatOk : JSValue → Bool
  | .prom p => match p.result with | .ok _ => true | .error _ => false
  | _ => true

/-- A value none of whose flattened children holds a rejected promise. -/
def valOk (v : JSValue) : Bool := (flattenVal v).all flatOk

/-- The rejection a (flattened) child contributes: the error of its
rejected promise, if it is one. -/
def childRejs : JSValue → List String
  | .prom p => match p.result with | .error e => [e] | .ok _ => []
  | _ => []

/-- The rejections contributed by a list of flattened children, in
reverse child order (the buffer accumulates them by prepending). -/
def revChildRejs : List JSValue → List String
  | [] => []
  | c :: rest => revChildRejs rest ++ childRejs c

/-- The rejections of one interpolated value, in template order. -/
def valRejs (v : JSValue) : List String :=
  ((flattenVal v).map childRejs).flatten

/-- The rejections of the values a template invocation uses, in template
order; mirrors the recursion of `htmlSteps`. -/
def usedRejs : List String → List JSValue → List String
  | _ :: s2 :: restSegs, vals =>
    valRejs (vals.headD .undefined) ++ usedRejs (s2 :: restSegs) vals.tail
  | _, _ => []

/-- The rejections of the used values as the buffer accumulates them
(prepending reverses them). -/
def revUsedRejs : List String → List JSValue → List String
  | _ :: s2 :: restSegs, vals =>
    revUsedRejs (s2 :: restSegs) vals.tail ++
      revChildRejs (flattenVal (vals.headD .undefined))
  | _, _ => []

/-! ### Theorems -/

theorem str_append_assoc (a b c : String) : a ++ b ++ c = a ++ (b ++ c) :=
  String.ext (by simp)

theorem str_append_empty (s : String) : s ++ "" = s :=
  String.ext (by simp)

theorem str_empty_append (s : String) : "" ++ s = s :=
  String.ext (by simp)

theorem escRun_eq (chars : List Char) :
    ∀ run acc, escRun chars run acc = acc ++ run ++ escapeList chars := by
  induction chars with
  | nil => intro run acc; simp [escRun, escapeList, str_append_empty]
  | cons c rest ih =>
    intro run acc
    cases h : escapeCode c.toNat with
    | some e => simp [escRun, escapeList, h, ih, str_append_empty, str_append_assoc]
    | none => simp [escRun, escapeList, h, ih, str_append_assoc]

theorem escapeList_all_plain (chars : List Char)
    (h : ∀ c ∈ chars, (escapeCode c.toNat).isNone) :
    escapeList chars = String.mk chars := by
  induction chars with
  | nil => rfl
  | cons c rest ih =>
    have hc : escapeCode c.toNat = none := by
      have := h c (by simp)
      simpa [Option.isNone_iff_eq_none] using this
    have hr := ih (fun c hmem => h c (by simp [hmem]))
    simp only [escapeList, hc]
    exact String.ext (by simp [hr])

theorem escapeToBuffer_eq (str buf : String) :
    escapeToBuffer str buf = buf ++ escapeList str.data := by
  unfold escapeToBuffer
  split
  case isTrue h =>
    have hall : ∀ c ∈ str.data, (escapeCode c.toNat).isNone := by
      simpa [List.all_eq_true] using h
    rw [escapeList_all_plain str.data hall]
  case isFalse h =>
    rw [escRun_eq, str_append_empty]

theorem escapeCode_spec (n : Nat) :
    escapeCode n = if n = 34 then some "&quot;" else if n = 39 then some "&#39;"
      else if n = 38 then some "&amp;" else if n = 60 then some "&lt;"
      else if n = 62 then some "&gt;" else none := by
  unfold escapeCode
  split <;> simp_all

/-- Claim C1: escaping replaces exactly the five characters `&ampersand;
less-than, greater-than, double and single quote` — codes 38, 60, 62, 34,
39 — by `&amp; &lt; &gt; &quot; &#39;` and copies every other character
verbatim: the scanning loop `escapeToBuffer` equals the per-character
substitution `escapeList`, whose table `escapeCode` hits exactly those
five codes; and the template `<h1>Hello ${"<script>"}</h1>` resolves to
`<h1>Hello &lt;script&gt;</h1>`. -/
theorem escaping_five_chars_c1 :
    (∀ str buf, escapeToBuffer str buf = buf ++ escapeList str.data) ∧
    (∀ n, escapeCode n = if n = 34 then some "&quot;" else if n = 39 then some "&#39;"
      else if n = 38 then some "&amp;" else if n = 60 then some "&lt;"
      else if n = 62 then some "&gt;" else none) ∧
    html ["<h1>Hello ", "</h1>"] [.str "<script>"] =
      .sync (.mk "<h1>Hello &lt;script&gt;</h1>" true none) :=
  ⟨escapeToBuffer_eq, escapeCode_spec, by rfl⟩

/-- Claim C4: `raw` wraps any value as a string-like object carrying the
escaped marker and the given callback list, with no validation performed
(every input is accepted unchanged), and a value so marked passes through
the `html` tag without being escaped again:
`<div>${raw("<b>safe</b>")}</div>` resolves to `<div><b>safe</b></div>`. -/
theorem raw_marks_preescaped_c4 :
    (∀ value callbacks, raw value callbacks = .mk value true callbacks ∧
      (raw value callbacks).isEscaped = true ∧
      (raw value callbacks).callbacks = callbacks ∧
      (raw value callbacks).value = value) ∧
    html ["<div>", "</div>"] [.escaped (raw "<b>safe</b>" none)] =
      .sync (.mk "<div><b>safe</b></div>" true none) :=
  ⟨fun _ _ => ⟨rfl, rfl, rfl, rfl⟩, by rfl⟩

/-- Claim C9: interpolated boolean, `null` and `undefined` values
contribute nothing: `processChild` returns the buffer unchanged on them,
and `<div>${false}${null}${undefined}</div>` equals `<div></div>`. -/
theorem skip_falsy_values_c9 :
    (∀ b bo, processChild b (.bool bo) = b) ∧
    (∀ b, processChild b .null = b) ∧
    (∀ b, processChild b .undefined = b) ∧
    html ["<div>", "", "", "</div>"] [.bool false, .null, .undefined] =
      .sync (.mk "<div></div>" true none) :=
  ⟨fun _ _ => rfl, fun _ => rfl, fun _ => rfl, by rfl⟩

theorem hsize_pos (v : EString) : 0 < hsize v := by
  obtain ⟨s, e, cbs⟩ := v
  cases cbs <;> simp [hsize]

theorem hsize_lt_of_okOut {cbl : List Cb} {w : EString} (hw : w ∈ okOuts cbl) :
    hsize w < hsizeList cbl := by
  induction cbl with
  | nil => simp [okOuts] at hw
  | cons c rest ih =>
    obtain ⟨i, o⟩ := c
    rcases o with _ | e
    · simp only [okOuts, List.filterMap_cons] at hw
      have := ih (by simpa [okOuts] using hw)
      simp only [hsizeList]
      omega
    · rcases e with e | v'
      · simp only [okOuts, List.filterMap_cons] at hw
        have := ih (by simpa [okOuts] using hw)
        simp only [hsizeList]
        omega
      · simp only [okOuts, List.filterMap_cons, List.mem_cons] at hw
        simp only [hsizeList]
        rcases hw with rfl | hw
        · omega
        · have := ih (by simpa [okOuts] using hw)
          omega

theorem hsizeList_cons_pos (c : Cb) (rest : List Cb) : 0 < hsizeList (c :: rest) := by
  obtain ⟨i, o⟩ := c
  rcases o with _ | e
  · simp [hsizeList]
  · rcases e with e | v' <;> simp [hsizeList]

theorem chainFuel_isSome :
    ∀ (fuel : Nat) (outs : List EString) (phase : Nat) (buf : String),
      (∀ w ∈ outs, hsize w ≤ fuel) → (chainFuel fuel phase outs buf).isSome := by
  intro fuel
  induction fuel using Nat.strong_induction_on with
  | _ fuel ih =>
    intro outs
    induction outs with
    | nil => intro phase buf _; cases fuel <;> simp [chainFuel, chainGo]
    | cons v rest ihl =>
      intro phase buf h
      obtain ⟨s, esc, cbs⟩ := v
      cases hcb : cbs.getD [] with
      | nil =>
        have hrest := ihl phase buf (fun w hw => h w (List.mem_cons_of_mem _ hw))
        cases fuel with
        | zero => simpa [chainFuel, chainGo, hcb] using hrest
        | succ f => simpa [chainFuel, chainGo, hcb] using hrest
      | cons c0 cbl' =>
        have hcbs : cbs = some (c0 :: cbl') := by
          cases cbs with
          | none => simp at hcb
          | some l => simpa using hcb
        have hhead : hsize (EString.mk s esc cbs) ≤ fuel := h _ (by simp)
        have hsz : hsize (EString.mk s esc cbs) = 1 + hsizeList (c0 :: cbl') := by
          rw [hcbs]; simp [hsize]
        have hfuel2 : 1 ≤ fuel := by
          have := hsizeList_cons_pos c0 cbl'
          omega
        obtain ⟨f, rfl⟩ : ∃ f, fuel = f + 1 := ⟨fuel - 1, by omega⟩
        have hbound : ∀ w ∈ okOuts (c0 :: cbl'), hsize w ≤ f := by
          intro w hw
          have := hsize_lt_of_okOut hw
          omega
        simp only [chainFuel, chainGo, hcb]
        cases hfe : firstErr ((c0 :: cbl').map (fun c => c.2)) with
        | some err => simp
        | none =>
          obtain ⟨r, hr⟩ := Option.isSome_iff_exists.mp
            (ih f (by omega) (okOuts (c0 :: cbl')) phase (buf ++ s) hbound)
          rw [hr]
          cases r with
          | error err => simp
          | ok p =>
            obtain ⟨buf1, tr⟩ := p
            obtain ⟨r2, hr2⟩ := Option.isSome_iff_exists.mp
              (ihl phase buf1 (fun w hw => h w (List.mem_cons_of_mem _ hw)))
            have hr2' : chainGo phase (chainFuel f phase) rest buf1 = some r2 := hr2
            cases r2 with
            | error err => simp [hr2']
            | ok p2 => obtain ⟨buf2, tr2⟩ := p2; simp [hr2']

/-- Claim C5: the recursive callback-resolution function terminates on
every input: fuel equal to the size of the value always suffices (the
result is never the fuel-exhaustion `none`), and — as the definition of
`resolveCallbackFuel` exhibits — every recursive call on callback output
runs with `preserveCallbacks` cleared (`chainFuel` resolves outputs the
way `resolveCallback(str, phase, false, context, buffer)` does). -/
theorem resolve_callback_terminates_c5 :
    ∀ (v : EString) (phase : Nat) (preserve : Bool) (buffer : Option String),
      (resolveCallbackFuel (hsize v) phase preserve v buffer).isSome = true := by
  intro v phase preserve buffer
  obtain ⟨s, esc, cbs⟩ := v
  cases hcb : cbs.getD [] with
  | nil => simp [resolveCallbackFuel, hcb]
  | cons c0 cbl' =>
    have hcbs : cbs = some (c0 :: cbl') := by
      cases cbs with
      | none => simp at hcb
      | some l => simpa using hcb
    have hsz : hsize (EString.mk s esc cbs) = hsizeList (c0 :: cbl') + 1 := by
      rw [hcbs]; simp [hsize]; omega
    rw [hsz]
    simp only [resolveCallbackFuel, hcb]
    cases hfe : firstErr ((c0 :: cbl').map (fun c => c.2)) with
    | some err => simp
    | none =>
      have hbound : ∀ w ∈ okOuts (c0 :: cbl'), hsize w ≤ hsizeList (c0 :: cbl') := by
        intro w hw
        have := hsize_lt_of_okOut hw
        omega
      obtain ⟨r, hr⟩ := Option.isSome_iff_exists.mp
        (chainFuel_isSome (hsizeList (c0 :: cbl')) (okOuts (c0 :: cbl')) phase
          (match buffer with | some b => b ++ s | none => s) hbound)
      rw [hr]
      cases r with
      | error err => simp
      | ok p => obtain ⟨buf1, tr⟩ := p; simp

/-- Claim C7: callbacks run in the order they were attached, which is the
left-to-right order of their owning fragments in the template, although
the buffer is built by prepending (`unshift`) and reassembled
right-to-left: a template with two callback-bearing fragments collects
`c1 ++ c2` in template order (and its text in positional order), and
whenever `resolveCallbackFuel` resolves a value, the invocation trace
starts with the attached callbacks' identifiers in attachment order. -/
theorem callback_order_c7 :
    (∀ (s1 s2 s3 v1 v2 : String) (c1 c2 : List Cb),
      html [s1, s2, s3]
          [.escaped (.mk v1 true (some c1)), .escaped (.mk v2 true (some c2))] =
        .async (.ok (.mk (s1 ++ (v1 ++ (s2 ++ (v2 ++ s3)))) true (some (c1 ++ c2))))) ∧
    (∀ (fuel phase : Nat) (preserve : Bool) (s : String) (esc : Bool) (cbl : List Cb)
        (buffer : Option String) (r : EString) (tr : List Nat),
      resolveCallbackFuel fuel phase preserve (.mk s esc (some cbl)) buffer =
          some (.ok (r, tr)) →
        ∃ t, tr = cbl.map (fun c => c.1) ++ t) := by
  constructor
  · intro s1 s2 s3 v1 v2 c1 c2
    simp [html, htmlSteps, processChild, HtmlBuf.unshift, HtmlBuf.entries,
      stringBufferToString, promiseAll, rejectionsOf, earliestRejection, settleOf,
      assemble, rvalue, raw, EString.isEscaped, EString.callbacks, EString.value,
      flattenVal, str_empty_append, str_append_empty, str_append_assoc]
  · intro fuel phase preserve s esc cbl buffer r tr hres
    cases cbl with
    | nil => exact ⟨tr, by simp⟩
    | cons c0 cbl' =>
      simp only [resolveCallbackFuel, Option.getD_some] at hres
      split at hres
      · exact absurd hres (by simp)
      · split at hres
        · exact absurd hres (by simp)
        · split at hres
          · exact absurd hres (by simp)
          · exact absurd hres (by simp)
          · simp only [Option.some.injEq, Except.ok.injEq, Prod.mk.injEq] at hres
            exact ⟨_, hres.2.symm⟩

mutual

theorem flattenVal_strip : ∀ (v : JSValue),
    flattenVal (stripVal v) = (flattenVal v).map stripVal
  | .arr l => by simp only [stripVal, flattenVal]; exact flattenList_strip l
  | .str s => rfl
  | .num n => rfl
  | .bool b => rfl
  | .null => rfl
  | .undefined => rfl
  | .escaped v => rfl
  | .prom p => rfl
  | .other s => rfl

theorem flattenList_strip : ∀ (l : List JSValue),
    flattenList (stripList l) = (flattenList l).map stripVal
  | [] => rfl
  | x :: rest => by
    simp only [stripList, flattenList, List.map_append]
    rw [flattenVal_strip x, flattenList_strip rest]

end

mutual

theorem flattenVal_no_arr : ∀ (v w : JSValue), w ∈ flattenVal v → ∀ l, w ≠ .arr l
  | .arr l, w, hw => flattenList_no_arr l w hw
  | .str s, w, hw => by simp [flattenVal] at hw; subst hw; simp
  | .num n, w, hw => by simp [flattenVal] at hw; subst hw; simp
  | .bool b, w, hw => by simp [flattenVal] at hw; subst hw; simp
  | .null, w, hw => by simp [flattenVal] at hw; subst hw; simp
  | .undefined, w, hw => by simp [flattenVal] at hw; subst hw; simp
  | .escaped v, w, hw => by simp [flattenVal] at hw; subst hw; simp
  | .prom p, w, hw => by simp [flattenVal] at hw; subst hw; simp
  | .other s, w, hw => by simp [flattenVal] at hw; subst hw; simp

theorem flattenList_no_arr : ∀ (l : List JSValue) (w : JSValue),
    w ∈ flattenList l → ∀ l2, w ≠ .arr l2
  | x :: rest, w, hw => by
    rw [flattenList, List.mem_append] at hw
    rcases hw with h | h
    · exact flattenVal_no_arr x w h
    · exact flattenList_no_arr rest w h

end

theorem processChild_strip (b : HtmlBuf) (c : JSValue) (h : ∀ l, c ≠ .arr l) :
    processChild (stripBuf b) (stripVal c) = stripBuf (processChild b c) := by
  cases c with
  | str s => rfl
  | num n => rfl
  | bool bo => rfl
  | null => rfl
  | undefined => rfl
  | arr l => exact absurd rfl (h l)
  | escaped v =>
    obtain ⟨s, e, cbsv⟩ := v
    cases e <;> cases cbsv <;> rfl
  | prom p => rfl
  | other s => rfl

theorem foldl_strip : ∀ (children : List JSValue) (b : HtmlBuf),
    (∀ c ∈ children, ∀ l, c ≠ .arr l) →
    (children.map stripVal).foldl processChild (stripBuf b) =
      stripBuf (children.foldl processChild b) := by
  intro children
  induction children with
  | nil => intro b _; rfl
  | cons c rest ih =>
    intro b h
    simp only [List.map_cons, List.foldl_cons]
    rw [processChild_strip b c (h c (by simp))]
    exact ih _ (fun c' hc' => h c' (List.mem_cons_of_mem _ hc'))

theorem htmlSteps_strip : ∀ (segs : List String) (vals : List JSValue) (b : HtmlBuf),
    htmlSteps (stripBuf b) segs (vals.map stripVal) =
      stripBuf (htmlSteps b segs vals) := by
  intro segs
  induction segs with
  | nil => intro vals b; rfl
  | cons s1 rest ih =>
    intro vals b
    cases rest with
    | nil => rfl
    | cons s2 rest2 =>
      simp only [htmlSteps]
      have hhead : (vals.map stripVal).headD .undefined =
          stripVal (vals.headD .undefined) := by cases vals <;> rfl
      have htail : (vals.map stripVal).tail = vals.tail.map stripVal := by
        cases vals <;> rfl
      rw [hhead, flattenVal_strip, htail]
      have hb1 : ({ stripBuf b with head := (stripBuf b).head ++ s1 } : HtmlBuf) =
          stripBuf { b with head := b.head ++ s1 } := rfl
      rw [hb1, foldl_strip _ _ (fun c hc => flattenVal_no_arr _ c hc)]
      exact ih vals.tail _

theorem settle_strip_default (e : BufEntry) :
    (match settleOf (stripEntry e) with
     | .ok r => r
     | .error _ => Resolved.prim "") =
    (match settleOf e with
     | .ok r => r
     | .error _ => Resolved.prim "") := by
  cases e with
  | str s => rfl
  | esc v => rfl
  | prom p => obtain ⟨d, res⟩ := p; cases res <;> rfl

theorem rejectionsOf_cons_str (s : String) (l : List BufEntry) :
    rejectionsOf (.str s :: l) = rejectionsOf l := by
  simp [rejectionsOf, List.filterMap_cons, settleOf]

theorem rejectionsOf_cons_esc (v : EString) (l : List BufEntry) :
    rejectionsOf (.esc v :: l) = rejectionsOf l := by
  simp [rejectionsOf, List.filterMap_cons, settleOf]

theorem rejectionsOf_cons_prom_ok (d : Nat) (r : Resolved) (l : List BufEntry) :
    rejectionsOf (.prom ⟨d, .ok r⟩ :: l) = rejectionsOf l := by
  simp [rejectionsOf, List.filterMap_cons, settleOf]

theorem rejectionsOf_cons_prom_error (d : Nat) (err : String) (l : List BufEntry) :
    rejectionsOf (.prom ⟨d, .error err⟩ :: l) = (d, err) :: rejectionsOf l := by
  simp [rejectionsOf, List.filterMap_cons, settleOf]

theorem rejectionsOf_strip (l : List BufEntry) :
    rejectionsOf (l.map stripEntry) = (rejectionsOf l).map (fun de => (0, de.2)) := by
  induction l with
  | nil => rfl
  | cons e rest ih =>
    cases e with
    | str s =>
      simp only [List.map_cons, stripEntry]
      rw [rejectionsOf_cons_str, rejectionsOf_cons_str, ih]
    | esc v =>
      simp only [List.map_cons, stripEntry]
      rw [rejectionsOf_cons_esc, rejectionsOf_cons_esc, ih]
    | prom p =>
      obtain ⟨d, res⟩ := p
      cases res with
      | ok r =>
        simp only [List.map_cons, stripEntry, stripProm]
        rw [rejectionsOf_cons_prom_ok, rejectionsOf_cons_prom_ok, ih]
      | error err =>
        simp only [List.map_cons, stripEntry, stripProm]
        rw [rejectionsOf_cons_prom_error, rejectionsOf_cons_prom_error, ih]
        simp

theorem sbts_strip (entries : List BufEntry) (cb : Option (List Cb))
    (h : rejectionsOf entries = []) :
    stringBufferToString (entries.map stripEntry) cb = stringBufferToString entries cb := by
  unfold stringBufferToString promiseAll
  rw [rejectionsOf_strip, h]
  simp only [List.map_nil]
  have hmap : (entries.map stripEntry).map
      (fun e => match settleOf e with | .ok r => r | .error _ => Resolved.prim "") =
      entries.map
      (fun e => match settleOf e with | .ok r => r | .error _ => Resolved.prim "") := by
    rw [List.map_map]
    exact List.map_congr_left (fun e _ => settle_strip_default e)
  rw [hmap]

theorem processChild_rejs (b : HtmlBuf) (c : JSValue) :
    (rejectionsOf (processChild b c).rest).map Prod.snd =
      childRejs c ++ (rejectionsOf b.rest).map Prod.snd := by
  cases c with
  | str s => simp [processChild, childRejs]
  | num n => simp [processChild, childRejs]
  | bool bo => simp [processChild, childRejs]
  | null => simp [processChild, childRejs]
  | undefined => simp [processChild, childRejs]
  | arr l => simp [processChild, childRejs]
  | other s => simp [processChild, childRejs]
  | escaped v =>
    obtain ⟨s, e, cbsv⟩ := v
    cases e <;> cases cbsv <;>
      simp [processChild, childRejs, HtmlBuf.unshift, EString.isEscaped,
        EString.callbacks, rejectionsOf_cons_str, rejectionsOf_cons_esc]
  | prom p =>
    obtain ⟨d, res⟩ := p
    cases res with
    | ok r =>
      simp [processChild, childRejs, HtmlBuf.unshift, rejectionsOf_cons_str,
        rejectionsOf_cons_prom_ok]
    | error err =>
      simp [processChild, childRejs, HtmlBuf.unshift, rejectionsOf_cons_str,
        rejectionsOf_cons_prom_error]

theorem foldl_rejs : ∀ (children : List JSValue) (b : HtmlBuf),
    (rejectionsOf ((children.foldl processChild b).rest)).map Prod.snd =
      revChildRejs children ++ (rejectionsOf b.rest).map Prod.snd := by
  intro children
  induction children with
  | nil => intro b; simp [revChildRejs]
  | cons c rest ih =>
    intro b
    simp only [List.foldl_cons, revChildRejs]
    rw [ih, processChild_rejs]
    simp [List.append_assoc]

theorem htmlSteps_rejs : ∀ (segs : List String) (vals : List JSValue) (b : HtmlBuf),
    (rejectionsOf (htmlSteps b segs vals).rest).map Prod.snd =
      revUsedRejs segs vals ++ (rejectionsOf b.rest).map Prod.snd := by
  intro segs
  induction segs with
  | nil => intro vals b; simp [htmlSteps, revUsedRejs]
  | cons s1 rest ih =>
    intro vals b
    cases rest with
    | nil => simp [htmlSteps, revUsedRejs]
    | cons s2 rest2 =>
      simp only [htmlSteps, revUsedRejs]
      rw [ih, foldl_rejs]
      simp [List.append_assoc]

theorem childRejs_of_flatOk {c : JSValue} (h : flatOk c = true) : childRejs c = [] := by
  cases c with
  | prom p =>
    obtain ⟨d, res⟩ := p
    cases res with
    | ok r => rfl
    | error err => simp [flatOk] at h
  | str s => rfl
  | num n => rfl
  | bool b => rfl
  | null => rfl
  | undefined => rfl
  | arr l => rfl
  | escaped v => rfl
  | other s => rfl

theorem revChildRejs_of_ok {l : List JSValue} (h : ∀ c ∈ l, flatOk c = true) :
    revChildRejs l = [] := by
  induction l with
  | nil => rfl
  | cons c rest ih =>
    simp only [revChildRejs]
    rw [ih (fun c' hc' => h c' (List.mem_cons_of_mem _ hc')),
      childRejs_of_flatOk (h c (by simp))]
    rfl

theorem revUsedRejs_of_ok : ∀ (segs : List String) (vals : List JSValue),
    (∀ v ∈ vals, valOk v = true) → revUsedRejs segs vals = [] := by
  intro segs
  induction segs with
  | nil => intro vals _; rfl
  | cons s1 rest ih =>
    intro vals h
    cases rest with
    | nil => rfl
    | cons s2 rest2 =>
      simp only [revUsedRejs]
      have hhead : valOk (vals.headD .undefined) = true := by
        cases vals with
        | nil => rfl
        | cons v vs => exact h v (by simp)
      have htail : ∀ v ∈ vals.tail, valOk v = true := by
        intro v hv
        cases vals with
        | nil => simp at hv
        | cons v0 vs => exact h v (List.mem_cons_of_mem _ hv)
      rw [ih vals.tail htail,
        revChildRejs_of_ok (by simpa [valOk, List.all_eq_true] using hhead)]
      rfl

/-- Claim C2: however the interpolated promises settle, the final string
lists each value's contribution in template position order: the result of
`html` is unchanged under erasing every settlement delay (provided no
promise rejects — with rejections the delays pick which error wins), and
a template whose first promise settles after its second still resolves in
positional order (`a X b Y c`). -/
theorem promise_order_positional_c2 :
    (∀ (segs : List String) (vals : List JSValue), (∀ v ∈ vals, valOk v = true) →
      html segs (vals.map stripVal) = html segs vals) ∧
    html ["a", "b", "c"] [.prom ⟨5, .ok (.prim "X")⟩, .prom ⟨2, .ok (.prim "Y")⟩] =
      .async (.ok (.mk "aXbYc" true (some []))) := by
  constructor
  · intro segs vals hok
    have hsteps : htmlSteps ⟨"", [], none⟩ segs (vals.map stripVal) =
        stripBuf (htmlSteps ⟨"", [], none⟩ segs vals) :=
      htmlSteps_strip segs vals ⟨"", [], none⟩
    have hrej : rejectionsOf (htmlSteps ⟨"", [], none⟩ segs vals).rest = [] := by
      have h1 := htmlSteps_rejs segs vals ⟨"", [], none⟩
      rw [revUsedRejs_of_ok segs vals hok] at h1
      simp only [rejectionsOf, List.filterMap_nil, List.map_nil, List.nil_append] at h1
      exact List.map_eq_nil_iff.mp h1
    simp only [html, HtmlBuf.entries]
    rw [hsteps]
    cases hrest : (htmlSteps ⟨"", [], none⟩ segs vals).rest with
    | nil => simp [stripBuf, hrest]
    | cons e rest' =>
      simp only [stripBuf, hrest, List.map_cons, List.isEmpty_cons]
      rw [show (BufEntry.str ((htmlSteps ⟨"", [], none⟩ segs vals).head ++
            (segs.getLast?.getD "undefined")) :: stripEntry e :: rest'.map stripEntry) =
          ((BufEntry.str ((htmlSteps ⟨"", [], none⟩ segs vals).head ++
            (segs.getLast?.getD "undefined")) :: e :: rest').map stripEntry) from rfl]
      rw [sbts_strip _ _ (by rw [rejectionsOf_cons_str, ← hrest]; exact hrej)]
  · rfl

theorem childRejs_reverse (c : JSValue) : (childRejs c).reverse = childRejs c := by
  cases c with
  | prom p => obtain ⟨d, res⟩ := p; cases res <;> rfl
  | str s => rfl
  | num n => rfl
  | bool b => rfl
  | null => rfl
  | undefined => rfl
  | arr l => rfl
  | escaped v => rfl
  | other s => rfl

theorem revChildRejs_eq (l : List JSValue) :
    revChildRejs l = ((l.map childRejs).flatten).reverse := by
  induction l with
  | nil => rfl
  | cons c rest ih =>
    simp [revChildRejs, ih, List.reverse_append, childRejs_reverse]

theorem revUsedRejs_eq : ∀ (segs : List String) (vals : List JSValue),
    revUsedRejs segs vals = (usedRejs segs vals).reverse := by
  intro segs
  induction segs with
  | nil => intro vals; rfl
  | cons s1 rest ih =>
    intro vals
    cases rest with
    | nil => rfl
    | cons s2 rest2 =>
      simp only [revUsedRejs, usedRejs]
      rw [ih vals.tail, revChildRejs_eq]
      simp [valRejs, List.reverse_append]

theorem map_snd_singleton {α β : Type} {l : List (α × β)} {x : β}
    (h : l.map Prod.snd = [x]) : ∃ a, l = [(a, x)] := by
  cases l with
  | nil => simp at h
  | cons p tail =>
    cases tail with
    | nil =>
      obtain ⟨p1, p2⟩ := p
      simp at h
      exact ⟨p1, by simp [h]⟩
    | cons q tail2 => simp at h

/-- Claim C6: a rejected promise among the interpolated values makes the
whole template result that same rejection — nothing is caught, nothing
retried, no partial output survives: with exactly one rejection `e` among
the used values, `html` returns the rejected promise `.async (.error e)`;
and a rejecting callback promise likewise rejects the whole
`resolveCallback` result with that same error. -/
theorem rejection_propagates_c6 :
    (∀ (segs : List String) (vals : List JSValue) (e : String),
      usedRejs segs vals = [e] → html segs vals = .async (.error e)) ∧
    (∀ (fuel phase : Nat) (preserve : Bool) (s : String) (esc : Bool)
        (cbl : List Cb) (buffer : Option String) (err : String),
      firstErr (cbl.map (fun c => c.2)) = some err →
        resolveCallbackFuel (fuel + 1) phase preserve (.mk s esc (some cbl)) buffer =
          some (.error err)) := by
  constructor
  · intro segs vals e h
    have hrev : revUsedRejs segs vals = [e] := by
      rw [revUsedRejs_eq, h]
      rfl
    have hmap : (rejectionsOf (htmlSteps ⟨"", [], none⟩ segs vals).rest).map Prod.snd =
        [e] := by
      have h1 := htmlSteps_rejs segs vals ⟨"", [], none⟩
      rw [hrev] at h1
      simpa [rejectionsOf] using h1
    obtain ⟨d, hd⟩ := map_snd_singleton hmap
    simp only [html, HtmlBuf.entries]
    cases hrest : (htmlSteps ⟨"", [], none⟩ segs vals).rest with
    | nil => rw [hrest] at hd; simp [rejectionsOf] at hd
    | cons e0 rest' =>
      rw [hrest] at hd
      simp only [List.isEmpty_cons, Bool.false_eq_true, if_false]
      unfold stringBufferToString promiseAll
      rw [rejectionsOf_cons_str, hd]
      simp [earliestRejection]
  · intro fuel phase preserve s esc cbl buffer err hfe
    cases cbl with
    | nil => simp [firstErr] at hfe
    | cons c0 cbl' =>
      simp only [resolveCallbackFuel, Option.getD_some]
      rw [hfe]

theorem processChild_rest_nondef {b : HtmlBuf} {c : JSValue}
    (h : deferredChild c = false) : (processChild b c).rest = b.rest := by
  cases c with
  | str s => rfl
  | num n => rfl
  | bool bo => rfl
  | null => rfl
  | undefined => rfl
  | arr l => rfl
  | other s => rfl
  | prom p => simp [deferredChild] at h
  | escaped v =>
    obtain ⟨s, e, cbsv⟩ := v
    cases e with
    | false => cases cbsv <;> rfl
    | true =>
      cases cbsv with
      | none => rfl
      | some cbl => simp [deferredChild, EString.isEscaped, EString.callbacks] at h

theorem processChild_rest_def {b : HtmlBuf} {c : JSValue}
    (h : deferredChild c = true) :
    ∃ en, (processChild b c).rest = en :: .str b.head :: b.rest := by
  cases c with
  | str s => simp [deferredChild] at h
  | num n => simp [deferredChild] at h
  | bool bo => simp [deferredChild] at h
  | null => simp [deferredChild] at h
  | undefined => simp [deferredChild] at h
  | arr l => simp [deferredChild] at h
  | other s => simp [deferredChild] at h
  | prom p => exact ⟨.prom p, rfl⟩
  | escaped v =>
    obtain ⟨s, e, cbsv⟩ := v
    cases e with
    | false => simp [deferredChild, EString.isEscaped] at h
    | true =>
      cases cbsv with
      | none => simp [deferredChild, EString.isEscaped, EString.callbacks] at h
      | some cbl => exact ⟨.esc (.mk s true (some cbl)), rfl⟩

theorem processChild_rest_len (b : HtmlBuf) (c : JSValue) :
    b.rest.length ≤ (processChild b c).rest.length := by
  cases hd : deferredChild c with
  | false => rw [processChild_rest_nondef hd]
  | true =>
    obtain ⟨en, hen⟩ := processChild_rest_def hd
    rw [hen]
    simp
    omega

theorem foldl_rest_len : ∀ (children : List JSValue) (b : HtmlBuf),
    b.rest.length ≤ ((children.foldl processChild b)).rest.length := by
  intro children
  induction children with
  | nil => intro b; simp
  | cons c rest ih =>
    intro b
    calc b.rest.length ≤ (processChild b c).rest.length := processChild_rest_len b c
    _ ≤ _ := ih (processChild b c)

theorem foldl_rest_nondef : ∀ (children : List JSValue) (b : HtmlBuf),
    children.all (fun c => !deferredChild c) = true →
    ((children.foldl processChild b)).rest = b.rest := by
  intro children
  induction children with
  | nil => intro b _; rfl
  | cons c rest ih =>
    intro b h
    simp only [List.all_cons, Bool.and_eq_true] at h
    have h1 : deferredChild c = false := by simpa using h.1
    simp only [List.foldl_cons]
    rw [ih (processChild b c) h.2, processChild_rest_nondef h1]

theorem foldl_rest_def : ∀ (children : List JSValue) (b : HtmlBuf),
    children.any deferredChild = true →
    b.rest.length < ((children.foldl processChild b)).rest.length := by
  intro children
  induction children with
  | nil => intro b h; simp at h
  | cons c rest ih =>
    intro b h
    simp only [List.any_cons, Bool.or_eq_true] at h
    simp only [List.foldl_cons]
    cases hd : deferredChild c with
    | true =>
      obtain ⟨en, hen⟩ := processChild_rest_def hd
      have h2 := foldl_rest_len rest (processChild b c)
      rw [hen] at h2
      simp only [List.length_cons] at h2
      omega
    | false =>
      rcases h with h | h
      · rw [hd] at h; simp at h
      · have := ih (processChild b c) h
        rw [processChild_rest_nondef hd] at this
        exact this

theorem getD_tail (l : List JSValue) (i : Nat) (d : JSValue) :
    l.tail.getD i d = l.getD (i + 1) d := by
  cases l <;> simp [List.getD]

theorem getD_zero_headD (l : List JSValue) (d : JSValue) :
    l.getD 0 d = l.headD d := by
  cases l <;> simp [List.getD]

theorem htmlSteps_rest_len : ∀ (segs : List String) (vals : List JSValue) (b : HtmlBuf),
    b.rest.length ≤ (htmlSteps b segs vals).rest.length := by
  intro segs
  induction segs with
  | nil => intro vals b; simp [htmlSteps]
  | cons s1 rest ih =>
    intro vals b
    cases rest with
    | nil => simp [htmlSteps]
    | cons s2 rest2 =>
      simp only [htmlSteps]
      calc b.rest.length
          ≤ ((flattenVal (vals.headD .undefined)).foldl processChild
              { b with head := b.head ++ s1 }).rest.length :=
            foldl_rest_len (flattenVal (vals.headD .undefined))
              { b with head := b.head ++ s1 }
        _ ≤ _ := ih vals.tail _

theorem htmlSteps_rest_nondef : ∀ (segs : List String) (vals : List JSValue) (b : HtmlBuf),
    (∀ i < segs.length - 1, isDeferredVal (vals.getD i .undefined) = false) →
    (htmlSteps b segs vals).rest = b.rest := by
  intro segs
  induction segs with
  | nil => intro vals b _; rfl
  | cons s1 rest ih =>
    intro vals b h
    cases rest with
    | nil => rfl
    | cons s2 rest2 =>
      simp only [htmlSteps]
      have h0 : isDeferredVal (vals.headD .undefined) = false := by
        rw [← getD_zero_headD]
        exact h 0 (by simp)
      have hall : (flattenVal (vals.headD .undefined)).all
          (fun c => !deferredChild c) = true := by
        simp only [isDeferredVal, List.any_eq_false] at h0
        simp only [List.all_eq_true, Bool.not_eq_eq_eq_not, Bool.not_true]
        exact fun c hc => Bool.eq_false_iff.mpr (h0 c hc)
      rw [ih vals.tail _ (by
        intro i hi
        rw [getD_tail]
        exact h (i + 1) (by simp at hi ⊢; omega)),
        foldl_rest_nondef _ _ hall]

theorem htmlSteps_rest_def : ∀ (segs : List String) (vals : List JSValue) (b : HtmlBuf),
    (∃ i, i < segs.length - 1 ∧ isDeferredVal (vals.getD i .undefined) = true) →
    b.rest.length < (htmlSteps b segs vals).rest.length := by
  intro segs
  induction segs with
  | nil => intro vals b h; obtain ⟨i, hi, _⟩ := h; simp at hi
  | cons s1 rest ih =>
    intro vals b h
    obtain ⟨i, hi, hdef⟩ := h
    cases rest with
    | nil => simp at hi
    | cons s2 rest2 =>
      simp only [htmlSteps]
      cases i with
      | zero =>
        rw [getD_zero_headD] at hdef
        have h1 : ({ b with head := b.head ++ s1 } : HtmlBuf).rest.length <
            ((flattenVal (vals.headD .undefined)).foldl processChild
              { b with head := b.head ++ s1 }).rest.length :=
          foldl_rest_def _ _ (by simpa [isDeferredVal] using hdef)
        have h2 := htmlSteps_rest_len (s2 :: rest2) vals.tail
          ((flattenVal (vals.headD .undefined)).foldl processChild
            { b with head := b.head ++ s1 })
        simp only at h1
        omega
      | succ j =>
        have h1 := foldl_rest_len (flattenVal (vals.headD .undefined))
          ({ b with head := b.head ++ s1 })
        have h2 := ih vals.tail
          ((flattenVal (vals.headD .undefined)).foldl processChild
            { b with head := b.head ++ s1 })
          ⟨j, by simp at hi ⊢; omega, by rw [getD_tail]; exact hdef⟩
        simp only at h1
        omega

/-- Claim C3: the `html` tag returns synchronously exactly when no used
interpolated value requires deferral (no promise and no
escaped-with-callbacks object among the flattened children); otherwise it
returns a promise. -/
theorem sync_iff_no_deferral_c3 :
    ∀ (segs : List String) (vals : List JSValue),
      (∃ w, html segs vals = .sync w) ↔
        (∀ i < segs.length - 1, isDeferredVal (vals.getD i .undefined) = false) := by
  intro segs vals
  constructor
  · rintro ⟨w, hw⟩ i hi
    cases hb : isDeferredVal (vals.getD i .undefined) with
    | false => rfl
    | true =>
      exfalso
      have hlt := htmlSteps_rest_def segs vals ⟨"", [], none⟩ ⟨i, hi, hb⟩
      simp only [html, HtmlBuf.entries] at hw
      cases hrest : (htmlSteps ⟨"", [], none⟩ segs vals).rest with
      | nil => rw [hrest] at hlt; simp at hlt
      | cons e0 r => rw [hrest] at hw; simp at hw
  · intro h
    have hrest : (htmlSteps ⟨"", [], none⟩ segs vals).rest = [] := by
      simpa using htmlSteps_rest_nondef segs vals ⟨"", [], none⟩ h
    simp only [html, HtmlBuf.entries]
    rw [hrest]
    simp only [List.isEmpty_nil, if_true]
    cases hcb : (htmlSteps ⟨"", [], none⟩ segs vals).callbacks with
    | none => exact ⟨_, rfl⟩
    | some cbl => exact ⟨_, rfl⟩

theorem hbuf_append_empty (b : HtmlBuf) : ({ b with head := b.head ++ "" } : HtmlBuf) = b := by
  obtain ⟨h, r, cb⟩ := b
  simp [str_append_empty]

theorem steps_flat : ∀ (vs : List JSValue) (b : HtmlBuf) (seg last : String),
    (∀ v ∈ vs, ∀ l2, v ≠ .arr l2) →
    htmlSteps b (seg :: (List.replicate (vs.length - 1) "" ++ [last])) vs =
      vs.foldl processChild { b with head := b.head ++ seg } := by
  intro vs
  induction vs with
  | nil => intro b seg last _; rfl
  | cons v rest ih =>
    intro b seg last h
    have hv : flattenVal v = [v] := by
      have := h v (by simp)
      cases v with
      | arr l2 => exact absurd rfl (this l2)
      | str s => rfl
      | num n => rfl
      | bool bo => rfl
      | null => rfl
      | undefined => rfl
      | escaped w => rfl
      | prom p => rfl
      | other s => rfl
    cases rest with
    | nil =>
      simp only [List.length_cons, List.length_nil, List.replicate, List.nil_append,
        htmlSteps, List.headD, List.tail, hv, List.foldl_cons, List.foldl_nil]
    | cons v2 rest2 =>
      have hlen : (v :: v2 :: rest2).length - 1 = rest2.length + 1 := by simp
      rw [hlen]
      simp only [List.replicate, List.cons_append]
      simp only [htmlSteps, List.headD, List.tail, hv, List.foldl_cons, List.foldl_nil]
      have hlen2 : List.replicate rest2.length "" ++ [last] =
          List.replicate ((v2 :: rest2).length - 1) "" ++ [last] := by simp
      rw [hlen2, ih _ "" last (fun w hw => h w (List.mem_cons_of_mem _ hw)),
        hbuf_append_empty]
      rfl

/-- Claim C8: an interpolated array is flattened recursively to unbounded
depth and each element is processed by the same rules as a directly
interpolated value: the nested-array example resolves to `abc`, and a
template interpolating an array equals the template interpolating its
flattened elements one by one. -/
theorem array_flatten_c8 :
    (html ["", ""] [.arr [.arr [.str "a"], .arr [.str "b", .arr [.str "c"]]]] =
      .sync (.mk "abc" true none)) ∧
    (∀ (s1 s2 : String) (l : List JSValue),
      html [s1, s2] [.arr l] =
        html (s1 :: (List.replicate ((flattenList l).length - 1) "" ++ [s2]))
          (flattenList l)) := by
  constructor
  · rfl
  · intro s1 s2 l
    have hb0 : htmlSteps ⟨"", [], none⟩
        (s1 :: (List.replicate ((flattenList l).length - 1) "" ++ [s2]))
        (flattenList l) =
        htmlSteps ⟨"", [], none⟩ [s1, s2] [.arr l] := by
      rw [steps_flat (flattenList l) ⟨"", [], none⟩ s1 s2
        (fun v hv => flattenList_no_arr l v hv)]
      simp only [htmlSteps, List.headD, List.tail, flattenVal]
    have hlast : (s1 :: (List.replicate ((flattenList l).length - 1) "" ++
        [s2])).getLast? = some s2 := by
      rw [← List.cons_append, List.getLast?_concat]
    simp only [html, hb0, hlast]
    rfl

theorem processChild_callbacks (b : HtmlBuf) (c : JSValue) :
    (processChild b c).callbacks = b.callbacks := by
  cases c with
  | str s => rfl
  | num n => rfl
  | bool bo => rfl
  | null => rfl
  | undefined => rfl
  | arr l => rfl
  | other s => rfl
  | prom p => rfl
  | escaped v =>
    obtain ⟨s, e, cbsv⟩ := v
    cases e <;> cases cbsv <;> rfl

theorem foldl_callbacks : ∀ (children : List JSValue) (b : HtmlBuf),
    ((children.foldl processChild b)).callbacks = b.callbacks := by
  intro children
  induction children with
  | nil => intro b; rfl
  | cons c rest ih =>
    intro b
    simp only [List.foldl_cons]
    rw [ih, processChild_callbacks]

theorem htmlSteps_callbacks : ∀ (segs : List String) (vals : List JSValue) (b : HtmlBuf),
    (htmlSteps b segs vals).callbacks = b.callbacks := by
  intro segs
  induction segs with
  | nil => intro vals b; rfl
  | cons s1 rest ih =>
    intro vals b
    cases rest with
    | nil => rfl
    | cons s2 rest2 =>
      simp only [htmlSteps]
      rw [ih, foldl_callbacks]

theorem stringBufferToString_ok_escaped {entries : List BufEntry}
    {cb : Option (List Cb)} {v : EString}
    (h : stringBufferToString entries cb = .ok v) : v.isEscaped = true := by
  unfold stringBufferToString at h
  split at h
  · simp at h
  · split at h
    simp only [raw, Except.ok.injEq] at h
    rw [← h]
    rfl

/-- Claim C10: every value the `html` tag produces carries the
`isEscaped = true` marker — the synchronous return and the resolved value
of the asynchronous return alike — and a synchronous return always has an
`undefined` callbacks list, because the buffer's `callbacks` property is
never assigned inside `html` (it stays `none` through `htmlSteps`). -/
theorem html_always_escaped_c10 :
    ∀ (segs : List String) (vals : List JSValue),
      (htmlSteps ⟨"", [], none⟩ segs vals).callbacks = none ∧
      (∀ v, html segs vals = .sync v → v.isEscaped = true ∧ v.callbacks = none) ∧
      (∀ v, html segs vals = .async (.ok v) → v.isEscaped = true) := by
  intro segs vals
  have hcb : (htmlSteps ⟨"", [], none⟩ segs vals).callbacks = none :=
    htmlSteps_callbacks segs vals ⟨"", [], none⟩
  refine ⟨hcb, ?_, ?_⟩
  · intro v hv
    simp only [html, HtmlBuf.entries] at hv
    rw [hcb] at hv
    cases hrest : (htmlSteps ⟨"", [], none⟩ segs vals).rest with
    | nil =>
      rw [hrest] at hv
      simp only [List.isEmpty_nil, if_true, raw, HtmlResult.sync.injEq] at hv
      rw [← hv]
      exact ⟨rfl, rfl⟩
    | cons e0 r =>
      rw [hrest] at hv
      simp at hv
  · intro v hv
    simp only [html, HtmlBuf.entries] at hv
    rw [hcb] at hv
    cases hrest : (htmlSteps ⟨"", [], none⟩ segs vals).rest with
    | nil =>
      rw [hrest] at hv
      simp at hv
    | cons e0 r =>
      rw [hrest] at hv
      simp only [List.isEmpty_cons, Bool.false_eq_true, if_false,
        HtmlResult.async.injEq] at hv
      exact stringBufferToString_ok_escaped hv

/-- Witness for claim C2 at a concrete resolving promise. -/
theorem promise_order_positional_c2_witness :
    html ["a", "b"] ([JSValue.prom ⟨3, .ok (.prim "Z")⟩].map stripVal) =
      html ["a", "b"] [JSValue.prom ⟨3, .ok (.prim "Z")⟩] :=
  promise_order_positional_c2.1 ["a", "b"] [.prom ⟨3, .ok (.prim "Z")⟩]
    (fun v hv => by rw [List.mem_singleton.mp hv]; rfl)

/-- Witness for claim C6: a concrete rejected promise and a concrete
rejecting callback. -/
theorem rejection_propagates_c6_witness :
    (usedRejs ["a", "b"] [.prom ⟨5, .error "boom"⟩] = ["boom"] ∧
      html ["a", "b"] [.prom ⟨5, .error "boom"⟩] = .async (.error "boom")) ∧
    resolveCallbackFuel 1 1 false (.mk "s" true (some [(4, some (.error "cberr"))])) none =
      some (.error "cberr") :=
  ⟨⟨rfl, rejection_propagates_c6.1 ["a", "b"] [.prom ⟨5, .error "boom"⟩] "boom" rfl⟩,
   rejection_propagates_c6.2 0 1 false "s" true [(4, some (.error "cberr"))] none "cberr" rfl⟩

/-- Witness for claim C7: a concrete two-callback value whose trace
starts with the attached identifiers in order. -/
theorem callback_order_c7_witness :
    ∃ t, ([7, 8, 9] : List Nat) =
      (([(7, some (Except.ok (EString.mk "out" true (some [(9, none)])))),
         (8, none)] : List Cb).map (fun c => c.1)) ++ t :=
  callback_order_c7.2 10 1 true "s" true
    [(7, some (Except.ok (EString.mk "out" true (some [(9, none)])))), (8, none)]
    none
    (.mk "sout" true
      (some [(7, some (Except.ok (EString.mk "out" true (some [(9, none)])))), (8, none)]))
    [7, 8, 9] (by rfl)

/-- Witness for claim C10: a concrete synchronous template carries the
marker with no callbacks, a concrete asynchronous one carries the
marker. -/
theorem html_always_escaped_c10_witness :
    ((EString.mk "ahib" true none).isEscaped = true ∧
      (EString.mk "ahib" true none).callbacks = none) ∧
    (EString.mk "aZb" true (some [])).isEscaped = true :=
  ⟨(html_always_escaped_c10 ["a", "b"] [.str "hi"]).2.1 _ rfl,
   (html_always_escaped_c10 ["a", "b"] [.prom ⟨0, .ok (.prim "Z")⟩]).2.2 _ rfl⟩

end Sapling
